import Mathlib

/-!
Shallow embedding of the transcript segmentation engine of `src/lib/videoRenderer.ts`
(word-stream segmenter `splitSubtitles` / `checkShouldSplit`, segment merger
`mergeShortSegments`, duration-based re-segmenter `splitTextByDuration` with its
helpers `splitIntoSentences`, `splitLongSentence`, `splitByWordCount`, and the
timing re-normalizer `recalculateTimings`).

Modelling conventions:
- JavaScript numbers are modelled as exact rationals; where the source can
  produce `NaN` (division by zero in `recalculateTimings`) values are modelled
  as `Option ℚ` with `none` standing for `NaN`, which propagates through
  arithmetic just as `NaN` does.
- Strings are modelled as `List Char`.  A `RegExp` value is modelled by its
  observable operations used in the source (`.test`, and for the natural-break
  pattern also `String.split` including the ECMAScript behaviour that a
  non-participating capture group contributes `undefined` to the result of
  `split`, which makes the subsequent `.trim()` in a `filter` callback throw;
  fallible paths therefore return `Except`).
- `generateId` is time-and-randomness based in the source and behaviourally
  insignificant; it is modelled as a constant token.
-/

set_option maxRecDepth 10000

/-- Whitespace test standing for the JavaScript `\s` class (restricted to the
whitespace characters that actually occur in this development). -/
def isWs (c : Char) : Bool :=
  c == ' ' || c == '\t' || c == '\n' || c == '\r'

/-- Number of non-whitespace characters, the source's `text.replace(/\s/g, '').length`. -/
def nonWsCount (s : List Char) : ℕ :=
  (s.filter (fun c => !(isWs c))).length

/-- The source's `Array.prototype.join(' ')` on a list of tokens. -/
def joinSpace (l : List (List Char)) : List Char :=
  List.intercalate [' '] l

/-- The source's `String.prototype.trim()`: strip whitespace from both ends. -/
def trim (s : List Char) : List Char :=
  ((s.dropWhile isWs).reverse.dropWhile isWs).reverse

/-- `pat` occurs at the start of `s` (anchored regex prefix match). -/
def startsWithSeq : List Char → List Char → Bool
  | [], _ => true
  | _ :: _, [] => false
  | p :: ps, c :: cs => p == c && startsWithSeq ps cs

/-- `pat` occurs at the end of `s` (anchored regex suffix match). -/
def endsWithSeq (pat s : List Char) : Bool :=
  startsWithSeq pat.reverse s.reverse

theorem lengthDropWhileLe (p : Char → Bool) (l : List Char) :
    (l.dropWhile p).length ≤ l.length := by
  induction l with
  | nil => simp
  | cons c rest ih =>
    by_cases h : p c
    · simp only [List.dropWhile, h, List.length_cons]
      omega
    · simp [List.dropWhile, h]

/-- `WordTimestamp` of the source: one recognized word with its time span. -/
structure Word where
  word : List Char
  startTime : ℚ
  endTime : ℚ
  confidence : Option ℚ
  deriving DecidableEq, Repr

/-- `STTResult` of the source. -/
structure STTResult where
  fullText : List Char
  words : List Word
  duration : ℚ
  language : Option (List Char)
  deriving DecidableEq, Repr

/-- `SubtitleSegment` of the source. -/
structure Segment where
  id : List Char
  text : List Char
  startTime : ℚ
  endTime : ℚ
  words : List Word
  duration : ℚ
  deriving DecidableEq, Repr

/-- `SplitterOptions` after the `{ ...DEFAULT_OPTIONS, ...options }` merge
(every field present).  The two regexes are modelled by the operations the
source applies to them: `.test`, and for the natural-break pattern also the
`String.split` behaviour (`naturalBreakSplit`), where an entry `none` stands
for the `undefined` that a non-participating capture group inserts. -/
structure SplitterOptions where
  minDuration : ℚ
  targetDuration : ℚ
  maxDuration : ℚ
  maxCharacters : ℕ
  sentenceDelimiters : List Char → Bool
  naturalBreakTest : List Char → Bool
  naturalBreakSplit : List Char → List (Option (List Char))

/-- The characters of the default `sentenceDelimiters` class `[.?!。？！]`. -/
def sentenceDelimChars : List Char :=
  ['.', '?', '!', '。', '？', '！']

/-- The character alternatives `[,，、:;]` of the default `naturalBreakPattern`. -/
def breakDelimChars : List Char :=
  [',', '，', '、', ':', ';']

/-- The conjunction alternatives of the default `naturalBreakPattern`, in the
source order of the alternation. -/
def naturalBreakConjWords : List (List Char) :=
  ["그리고".toList, "그래서".toList, "하지만".toList, "그러나".toList,
   "그런데".toList, "또한".toList, "그리고는".toList, "그래서는".toList,
   "근데".toList, "아니면".toList, "또는".toList]

/-- The alternatives of `KOREAN_SENTENCE_ENDINGS`
`/(?:다|요|죠|네|나|까|지|고|며|면서|는데|니까|거든|잖아|래|세요|습니다|합니다|입니다|됩니다|니다)[\s]*$/`. -/
def koreanEndingWords : List (List Char) :=
  ["다".toList, "요".toList, "죠".toList, "네".toList, "나".toList,
   "까".toList, "지".toList, "고".toList, "며".toList, "면서".toList,
   "는데".toList, "니까".toList, "거든".toList, "잖아".toList, "래".toList,
   "세요".toList, "습니다".toList, "합니다".toList, "입니다".toList,
   "됩니다".toList, "니다".toList]

/-- The alternatives of the clause-start regex
`/^(그리고|그래서|하지만|그러나|그런데|또한|근데|아니면|또는|그럼|자|이제|그때)/`. -/
def clauseStartWords : List (List Char) :=
  ["그리고".toList, "그래서".toList, "하지만".toList, "그러나".toList,
   "그런데".toList, "또한".toList, "근데".toList, "아니면".toList,
   "또는".toList, "그럼".toList, "자".toList, "이제".toList, "그때".toList]

/-- `KOREAN_SENTENCE_ENDINGS.test(w)`: the pattern is a fixed alternation of
endings followed by `[\s]*` anchored at `$`, so it matches exactly when some
ending is a suffix of `w` with only whitespace after it. -/
def koreanSentenceEnding (w : List Char) : Bool :=
  koreanEndingWords.any (fun e => endsWithSeq e (w.reverse.dropWhile isWs).reverse)

/-- The default `sentenceDelimiters` test `/[.?!。？！]/.test`: containment of
one of the delimiter characters. -/
def defaultSentenceDelimTest (s : List Char) : Bool :=
  s.any (fun c => sentenceDelimChars.contains c)

/-- `cj` occurs at the start of `l` and is followed by at least one whitespace
character (the trailing `\s+` of the natural-break conjunction alternative). -/
def conjThenWs (cj l : List Char) : Bool :=
  startsWithSeq cj l &&
    (match l.drop cj.length with
     | c :: _ => isWs c
     | [] => false)

/-- First conjunction alternative (in alternation order) matching at the head
of `l` with a following whitespace character. -/
def findConjWs (l : List Char) : Option (List Char) :=
  naturalBreakConjWords.find? (fun cj => conjThenWs cj l)

/-- `naturalBreakPattern.test`: the string contains a break delimiter
character, or a conjunction word with whitespace on both sides
(`\s+(…)\s+`). -/
def defaultNaturalBreakTest : List Char → Bool
  | [] => false
  | c :: rest =>
    if breakDelimChars.contains c then true
    else if isWs c then
      (match findConjWs (rest.dropWhile isWs) with
       | some _ => true
       | none => defaultNaturalBreakTest rest)
    else defaultNaturalBreakTest rest

/-- `sentence.split(naturalBreakPattern)` for the default pattern
`/[,，、:;]|\s+(그리고|…)\s+/`.  Split pieces are `some`; each separator coming
from the character class contributes `none` for the non-participating capture
group (ECMAScript `String.split` semantics), while a conjunction separator
contributes the captured conjunction.  The separator of the conjunction
alternative consumes the maximal whitespace runs on both sides (`\s+` cannot
backtrack to a shorter run here because no alternative of the group starts
with whitespace). -/
def nbAux (piece : List Char) (s : List Char) : List (Option (List Char)) :=
  match s with
  | [] => [some piece]
  | c :: rest =>
    if breakDelimChars.contains c then
      some piece :: none :: nbAux [] rest
    else if isWs c then
      match findConjWs ((c :: rest).dropWhile isWs) with
      | some cj =>
        some piece :: some cj ::
          nbAux [] ((((c :: rest).dropWhile isWs).drop cj.length).dropWhile isWs)
      | none => nbAux (piece ++ [c]) rest
    else nbAux (piece ++ [c]) rest
termination_by s.length
decreasing_by
  · simp
  · have h1 : (((c :: rest).dropWhile isWs).drop cj.length).length ≤
        ((c :: rest).dropWhile isWs).length := by
      simp
    have h2 : ((c :: rest).dropWhile isWs).length ≤ rest.length := by
      have heq : (c :: rest).dropWhile isWs = rest.dropWhile isWs := by
        simp [List.dropWhile, *]
      rw [heq]
      exact lengthDropWhileLe isWs rest
    have h3 := lengthDropWhileLe isWs (((c :: rest).dropWhile isWs).drop cj.length)
    simp only [List.length_cons]
    omega
  · simp
  · simp

/-- `String.prototype.split` on the default natural-break pattern. -/
def defaultNaturalBreakSplit (s : List Char) : List (Option (List Char)) :=
  nbAux [] s

/-- `DEFAULT_OPTIONS` of the source. -/
def defaultOptions : SplitterOptions where
  minDuration := 3 / 2
  targetDuration := 5 / 2
  maxDuration := 7 / 2
  maxCharacters := 50
  sentenceDelimiters := defaultSentenceDelimTest
  naturalBreakTest := defaultNaturalBreakTest
  naturalBreakSplit := defaultNaturalBreakSplit

/-- `generateId()` is `Date.now`/`Math.random` based in the source; modelled as
a constant token since ids are behaviourally insignificant. -/
def generateId : List Char :=
  "seg".toList

/-- The clause-start test `/^(그리고|…)/.test(nextWord.word)`. -/
def startsNewClause (w : List Char) : Bool :=
  clauseStartWords.any (fun p => startsWithSeq p w)

/-- `SplitCheckParams` of the source. -/
structure SplitCheckParams where
  currentDuration : ℚ
  currentCharCount : ℕ
  currentText : List Char
  word : Word
  nextWord : Option Word
  opts : SplitterOptions

/-- `checkShouldSplit`: the prioritized split decision, translated clause by
clause from the source's early-return chain. -/
def checkShouldSplit (p : SplitCheckParams) : Bool :=
  match p.nextWord with
  | none => true
  | some nw =>
    let nextGap := nw.startTime - p.word.endTime
    if p.currentDuration ≥ p.opts.maxDuration then true
    else if p.currentCharCount ≥ p.opts.maxCharacters then true
    else if (p.opts.sentenceDelimiters p.word.word = true ∨
          koreanSentenceEnding p.word.word = true) ∧
        p.currentDuration ≥ p.opts.minDuration then true
    else if p.opts.naturalBreakTest p.currentText = true ∧
        p.currentDuration ≥ p.opts.targetDuration then true
    else if nextGap ≥ 1 / 2 ∧ p.currentDuration ≥ p.opts.minDuration then true
    else if p.currentDuration ≥ p.opts.targetDuration then
      if startsNewClause nw.word = true then true else false
    else false

/-- The split decision exactly as claim C2 words it: a flat disjunction of the
seven conditions (last word; duration ceiling; character ceiling; sentence end
with `minDuration`; natural break with `targetDuration`; silence gap with
`minDuration`; `targetDuration` with a clause-starting next word). -/
def splitDecisionSpec (p : SplitCheckParams) : Prop :=
  p.nextWord = none ∨
  p.currentDuration ≥ p.opts.maxDuration ∨
  p.currentCharCount ≥ p.opts.maxCharacters ∨
  ((p.opts.sentenceDelimiters p.word.word = true ∨
      koreanSentenceEnding p.word.word = true) ∧
    p.currentDuration ≥ p.opts.minDuration) ∨
  (p.opts.naturalBreakTest p.currentText = true ∧
    p.currentDuration ≥ p.opts.targetDuration) ∨
  (∃ nw, p.nextWord = some nw ∧ nw.startTime - p.word.endTime ≥ 1 / 2 ∧
    p.currentDuration ≥ p.opts.minDuration) ∨
  (p.currentDuration ≥ p.opts.targetDuration ∧
    ∃ nw, p.nextWord = some nw ∧ startsNewClause nw.word = true)

/-- `createSegment`: build a `SubtitleSegment` from a non-empty word buffer
(`endTime` reads the last buffered word; the source never calls it on an empty
buffer, the empty case defaults to `0`). -/
def createSegment (words : List Word) (startTime : ℚ) : Segment :=
  let text := trim (joinSpace (words.map (·.word)))
  let endTime := (words.map (·.endTime)).getLastD 0
  { id := generateId
    text := text
    startTime := startTime
    endTime := endTime
    words := words
    duration := endTime - startTime }

/-- The forward scan of `splitSubtitles` (lines 464–501): one accumulator of
buffered words, a running segment start time, and a lookahead of one word;
after the scan the remaining buffer is flushed. -/
def splitCore (opts : SplitterOptions) :
    List Word → List Word → ℚ → List Segment
  | [], currentWords, currentStartTime =>
    if currentWords.isEmpty then [] else [createSegment currentWords currentStartTime]
  | w :: rest, currentWords, currentStartTime =>
    let cw := currentWords ++ [w]
    let currentText := joinSpace (cw.map (·.word))
    let currentDuration := w.endTime - currentStartTime
    let currentCharCount := nonWsCount currentText
    let nextWord := rest.head?
    if checkShouldSplit
        { currentDuration := currentDuration
          currentCharCount := currentCharCount
          currentText := currentText
          word := w
          nextWord := nextWord
          opts := opts } then
      createSegment cw currentStartTime ::
        splitCore opts rest []
          (match rest.head? with
           | some nw => nw.startTime
           | none => currentStartTime)
    else
      splitCore opts rest cw currentStartTime

/-- The draft segments of `splitSubtitles` before the final merge pass
(the empty-word guard plus the scan). -/
def splitSubtitlesDraft (sttResult : STTResult) (opts : SplitterOptions) :
    List Segment :=
  match sttResult.words with
  | [] => []
  | w :: _ => splitCore opts sttResult.words [] w.startTime

/-- The merged segment the merger builds from a short segment and its
successor. -/
def mergedSeg (current next : Segment) : Segment :=
  { id := generateId
    text := trim (current.text ++ ' ' :: next.text)
    startTime := current.startTime
    endTime := next.endTime
    words := current.words ++ next.words
    duration := next.endTime - current.startTime }

/-- The index-walking `while` loop of `mergeShortSegments` (lines 625–650):
at index `i`, merge `segments[i]` with `segments[i+1]` when the current
segment is shorter than `minDuration` and the summed duration stays within
`maxDuration`, advancing by 2; otherwise keep the current segment and advance
by 1. -/
def mergeGo (opts : SplitterOptions) (segments : List Segment) (i : ℕ) :
    List Segment :=
  if h : i < segments.length then
    let current := segments[i]
    match segments[i + 1]? with
    | some next =>
      if current.duration < opts.minDuration ∧
          current.duration + next.duration ≤ opts.maxDuration then
        mergedSeg current next :: mergeGo opts segments (i + 2)
      else
        current :: mergeGo opts segments (i + 1)
    | none => current :: mergeGo opts segments (i + 1)
  else []
termination_by segments.length - i

/-- `mergeShortSegments`: the `length <= 1` early return followed by the
merge loop. -/
def mergeShortSegments (segments : List Segment) (opts : SplitterOptions) :
    List Segment :=
  if segments.length ≤ 1 then segments else mergeGo opts segments 0

/-- `splitSubtitles`: empty-word guard, forward scan, then the merge pass. -/
def splitSubtitles (sttResult : STTResult) (opts : SplitterOptions) :
    List Segment :=
  match sttResult.words with
  | [] => []
  | _ :: _ => mergeShortSegments (splitSubtitlesDraft sttResult opts) opts

/-- Proof-side reformulation of the merge loop as structural recursion on the
segment list; shown equal to `mergeShortSegments` below and used to reason by
induction. -/
def mergeRec (opts : SplitterOptions) : List Segment → List Segment
  | [] => []
  | [s] => [s]
  | s1 :: s2 :: rest =>
    if s1.duration < opts.minDuration ∧
        s1.duration + s2.duration ≤ opts.maxDuration then
      mergedSeg s1 s2 :: mergeRec opts rest
    else
      s1 :: mergeRec opts (s2 :: rest)

theorem mergeGo_shift_bounded (opts : SplitterOptions) (s : Segment)
    (segs : List Segment) (n : ℕ) :
    ∀ i, segs.length - i ≤ n → mergeGo opts (s :: segs) (i + 1) = mergeGo opts segs i := by
  induction n with
  | zero =>
    intro i hle
    have h : ¬ (i < segs.length) := by omega
    have h1 : ¬ (i + 1 < (s :: segs).length) := by simp; omega
    conv_lhs => rw [mergeGo]
    conv_rhs => rw [mergeGo]
    simp [h, h1]
  | succ n ih =>
    intro i hle
    by_cases h : i < segs.length
    · have h1 : i + 1 < (s :: segs).length := by simp; omega
      conv_lhs => rw [mergeGo]
      conv_rhs => rw [mergeGo]
      simp only [dif_pos h1, dif_pos h, List.getElem_cons_succ, List.getElem?_cons_succ]
      have e2 : i + 1 + 1 = i + 2 := by omega
      have e3 : i + 1 + 2 = i + 2 + 1 := by omega
      rw [e2, e3]
      cases hx : segs[i + 1]? with
      | none =>
        simp only []
        rw [show i + 2 = (i + 1) + 1 from by omega, ih (i + 1) (by omega)]
      | some nx =>
        simp only []
        by_cases hc : segs[i].duration < opts.minDuration ∧
            segs[i].duration + nx.duration ≤ opts.maxDuration
        · rw [if_pos hc, if_pos hc, ih (i + 2) (by omega)]
        · rw [if_neg hc, if_neg hc,
            show i + 2 = (i + 1) + 1 from by omega, ih (i + 1) (by omega)]
    · have h1 : ¬ (i + 1 < (s :: segs).length) := by simp; omega
      conv_lhs => rw [mergeGo]
      conv_rhs => rw [mergeGo]
      simp [h, h1]

theorem mergeGo_shift (opts : SplitterOptions) (s : Segment)
    (segs : List Segment) (i : ℕ) :
    mergeGo opts (s :: segs) (i + 1) = mergeGo opts segs i :=
  mergeGo_shift_bounded opts s segs (segs.length - i) i le_rfl

theorem mergeGo_zero_bounded (opts : SplitterOptions) (n : ℕ) :
    ∀ segs : List Segment, segs.length ≤ n →
      mergeGo opts segs 0 = mergeRec opts segs := by
  induction n with
  | zero =>
    intro segs hle
    have : segs = [] := by
      cases segs with
      | nil => rfl
      | cons a l => simp at hle
    subst this
    rw [mergeGo]; simp [mergeRec]
  | succ n ih =>
    intro segs hle
    match segs with
    | [] => rw [mergeGo]; simp [mergeRec]
    | [s] =>
      conv_lhs => rw [mergeGo]
      simp only [List.length_singleton, Nat.zero_lt_one, dif_pos]
      have h2 : mergeGo opts [s] 1 = [] := by
        rw [mergeGo]
        simp
      simp [mergeRec, h2]
    | s1 :: s2 :: rest =>
      conv_lhs => rw [mergeGo]
      have h0 : 0 < (s1 :: s2 :: rest).length := by simp
      simp only [h0, dif_pos]
      have hidx : (s1 :: s2 :: rest)[0 + 1]? = some s2 := by simp
      rw [hidx]
      simp only [List.getElem_cons_zero]
      by_cases hc : s1.duration < opts.minDuration ∧
          s1.duration + s2.duration ≤ opts.maxDuration
      · simp only [hc, if_pos]
        have : mergeGo opts (s1 :: s2 :: rest) (0 + 2) = mergeGo opts rest 0 := by
          have e1 : mergeGo opts (s1 :: s2 :: rest) 2 = mergeGo opts (s2 :: rest) 1 :=
            mergeGo_shift opts s1 (s2 :: rest) 1
          have e2 : mergeGo opts (s2 :: rest) 1 = mergeGo opts rest 0 :=
            mergeGo_shift opts s2 rest 0
          simpa using e1.trans e2
        rw [this, ih rest (by simp at hle; omega)]
        simp [mergeRec, hc]
      · simp only [hc, if_neg, not_false_iff]
        have : mergeGo opts (s1 :: s2 :: rest) (0 + 1) = mergeGo opts (s2 :: rest) 0 := by
          simpa using mergeGo_shift opts s1 (s2 :: rest) 0
        rw [this, ih (s2 :: rest) (by simp at hle ⊢; omega)]
        simp [mergeRec, hc]

theorem mergeGo_zero_eq_mergeRec (opts : SplitterOptions) (segs : List Segment) :
    mergeGo opts segs 0 = mergeRec opts segs :=
  mergeGo_zero_bounded opts segs.length segs le_rfl

theorem mergeShortSegments_eq_mergeRec (segs : List Segment)
    (opts : SplitterOptions) :
    mergeShortSegments segs opts = mergeRec opts segs := by
  match segs with
  | [] => simp [mergeShortSegments, mergeRec]
  | [s] => simp [mergeShortSegments, mergeRec]
  | s1 :: s2 :: rest =>
    rw [mergeShortSegments]
    have : ¬ ((s1 :: s2 :: rest).length ≤ 1) := by simp
    rw [if_neg this]
    exact mergeGo_zero_eq_mergeRec opts (s1 :: s2 :: rest)

set_option maxHeartbeats 2000000 in
/-- **C2** For every word position, the split decision is true exactly when one
of the enumerated conditions holds: last word; elapsed ≥ maxDuration; buffered
non-whitespace count ≥ maxCharacters; sentence-final word (delimiter or Korean
ending pattern) with elapsed ≥ minDuration; natural break with elapsed ≥
targetDuration; inter-word gap ≥ 0.5 s with elapsed ≥ minDuration; or elapsed ≥
targetDuration with a clause-starting next word — and false otherwise. -/
theorem checkShouldSplit_iff_splitDecisionSpec (p : SplitCheckParams) :
    checkShouldSplit p = true ↔ splitDecisionSpec p := by
  rcases p with ⟨cd, cc, ct, w, nxt, opts⟩
  cases nxt with
  | none => simp [checkShouldSplit, splitDecisionSpec]
  | some nw =>
    simp only [checkShouldSplit, splitDecisionSpec]
    by_cases h1 : cd ≥ opts.maxDuration <;>
      by_cases h2 : cc ≥ opts.maxCharacters <;>
        by_cases h3 : cd ≥ opts.minDuration <;>
          by_cases h4 : cd ≥ opts.targetDuration <;>
            by_cases h5 : nw.startTime - w.endTime ≥ 1 / 2 <;>
              by_cases hs : (opts.sentenceDelimiters w.word = true ∨
                  koreanSentenceEnding w.word = true) <;>
                cases hn : opts.naturalBreakTest ct <;>
                  cases hc : startsNewClause nw.word <;>
                    simp [h1, h2, h3, h4, h5, hs, hn, hc]

/-- **C9** For every options value, `splitSubtitles` on an `STTResult` with an
empty word list returns the empty sequence (no error). -/
theorem splitSubtitles_empty_words (opts : SplitterOptions) (fullText : List Char)
    (d : ℚ) (lang : Option (List Char)) :
    splitSubtitles (STTResult.mk fullText [] d lang) opts = [] :=
  rfl

/-- First counterexample segment for C5: an empty (already-trimmed) text. -/
def c5segA : Segment :=
  { id := generateId, text := [], startTime := 0, endTime := 1, words := [],
    duration := 1 }

/-- Second counterexample segment for C5. -/
def c5segB : Segment :=
  { id := generateId, text := ['b'], startTime := 1, endTime := 2, words := [],
    duration := 1 }

/-- **C5 counterexample** The merged text the code produces is
`(current.text + " " + next.text).trim()`, not `current.text + " " + next.text`:
with `current.text = ""` and `next.text = "b"` the merge fires (durations 1 and
1 against the defaults 1.5/3.5) and the output text is `"b"`, while the claim
predicts `" b"`. -/
theorem mergeShortSegments_trim_cx :
    (mergeShortSegments [c5segA, c5segB] defaultOptions).map Segment.text
        = [['b']] ∧
    c5segA.text ++ ' ' :: c5segB.text = [' ', 'b'] ∧
    (['b'] : List Char) ≠ [' ', 'b'] := by
  refine ⟨?_, by decide, by decide⟩
  rw [mergeShortSegments_eq_mergeRec]
  norm_num [mergeRec, mergedSeg, c5segA, c5segB, defaultOptions]
  decide

/-- **C5 (amended)** The merger is the stated single greedy left-to-right pass,
except that the merged text is `(current.text + " " + next.text).trim()`:
sequences of at most one element are returned unchanged, and at each step a
short current segment is merged with its successor exactly when
`current.duration < minDuration` and the summed durations stay within
`maxDuration`, consuming both (the merged result is not re-checked), otherwise
the current segment is kept unchanged. -/
theorem mergeShortSegments_greedy_pass (opts : SplitterOptions)
    (s1 s2 : Segment) (rest : List Segment) :
    mergeShortSegments [] opts = [] ∧
    mergeShortSegments [s1] opts = [s1] ∧
    mergeShortSegments (s1 :: s2 :: rest) opts =
      (if s1.duration < opts.minDuration ∧
          s1.duration + s2.duration ≤ opts.maxDuration then
        { id := generateId
          text := trim (s1.text ++ ' ' :: s2.text)
          startTime := s1.startTime
          endTime := s2.endTime
          words := s1.words ++ s2.words
          duration := s2.endTime - s1.startTime } :: mergeShortSegments rest opts
      else s1 :: mergeShortSegments (s2 :: rest) opts) := by
  refine ⟨rfl, rfl, ?_⟩
  rw [mergeShortSegments_eq_mergeRec, mergeShortSegments_eq_mergeRec,
    mergeShortSegments_eq_mergeRec, mergeRec]
  rfl

theorem splitSubtitles_eq_mergeRec_draft (stt : STTResult) (opts : SplitterOptions) :
    splitSubtitles stt opts = mergeRec opts (splitSubtitlesDraft stt opts) := by
  rcases stt with ⟨ft, ws, d, lg⟩
  cases ws with
  | nil => rfl
  | cons w rest =>
    simp only [splitSubtitles, splitSubtitlesDraft]
    exact mergeShortSegments_eq_mergeRec _ _

/-- Counterexample word 1: spans 0–1 s. -/
def cxWordA : Word :=
  { word := ['a'], startTime := 0, endTime := 1, confidence := none }

/-- Counterexample word 2: spans 1–4 s, so after appending it the elapsed
duration jumps from 1 s straight to 4 s, past the 3.5 s ceiling. -/
def cxWordB : Word :=
  { word := ['b'], startTime := 1, endTime := 4, confidence := none }

/-- Counterexample word 3: spans 5–6 s. -/
def cxWordC : Word :=
  { word := ['c'], startTime := 5, endTime := 6, confidence := none }

/-- Counterexample transcription input. -/
def cxStt : STTResult :=
  { fullText := [], words := [cxWordA, cxWordB, cxWordC], duration := 6,
    language := none }

/-- First draft segment the scanner produces on `cxStt`. -/
def cxSeg1 : Segment :=
  { id := generateId, text := ['a', ' ', 'b'], startTime := 0, endTime := 4,
    words := [cxWordA, cxWordB], duration := 4 }

/-- Second draft segment the scanner produces on `cxStt`. -/
def cxSeg2 : Segment :=
  { id := generateId, text := ['c'], startTime := 5, endTime := 6,
    words := [cxWordC], duration := 1 }

theorem cxDraft_eval :
    splitSubtitlesDraft cxStt defaultOptions = [cxSeg1, cxSeg2] := by
  norm_num +decide [splitSubtitlesDraft, cxStt, splitCore, checkShouldSplit,
    createSegment, koreanSentenceEnding, koreanEndingWords, endsWithSeq,
    startsWithSeq, defaultSentenceDelimTest, sentenceDelimChars,
    defaultNaturalBreakTest, findConjWs, conjThenWs, naturalBreakConjWords,
    startsNewClause, clauseStartWords, breakDelimChars, isWs, nonWsCount,
    joinSpace, List.intercalate, trim, generateId, cxWordA, cxWordB, cxWordC,
    defaultOptions, cxSeg1, cxSeg2]

/-- **C3 counterexample** The scanner checks the ceilings only after appending
the current word, so a ceiling-crossing word is kept in the segment it
overflows: on `cxStt` (defaults, maxDuration 3.5) the first draft segment has
two words and duration 4 > 3.5, and it is not the final segment nor a
single-word forced flush — beyond the claim's only admitted exception. -/
theorem splitSubtitlesDraft_ceiling_cx :
    (splitSubtitlesDraft cxStt defaultOptions).map
        (fun s => (s.duration, s.words.length)) = [(4, 2), (1, 1)] ∧
    ¬ ((4 : ℚ) ≤ defaultOptions.maxDuration) := by
  constructor
  · rw [cxDraft_eval]
    norm_num [cxSeg1, cxSeg2, cxWordA, cxWordB, cxWordC]
  · norm_num [defaultOptions]

/-- **C4 counterexample** The merger only bounds the pairs it newly merges;
segments that are not merged pass through unchanged, so its output can contain
segments with duration > maxDuration: the full pipeline output on `cxStt`
(defaults) still contains a segment of duration 4 > 3.5. -/
theorem mergeShortSegments_ceiling_cx :
    (splitSubtitles cxStt defaultOptions).map Segment.duration = [4, 1] ∧
    ¬ ((4 : ℚ) ≤ defaultOptions.maxDuration) := by
  constructor
  · rw [splitSubtitles_eq_mergeRec_draft, cxDraft_eval]
    norm_num [mergeRec, cxSeg1, cxSeg2, defaultOptions]
  · norm_num [defaultOptions]

theorem mergeRec_ceiling (opts : SplitterOptions) (segs : List Segment) :
    (∀ s ∈ segs, s.duration ≤ opts.maxDuration) →
    (∀ s ∈ segs, s.duration = s.endTime - s.startTime) →
    List.Chain' (fun a b => b.startTime = a.endTime) segs →
    ∀ s ∈ mergeRec opts segs, s.duration ≤ opts.maxDuration := by
  induction segs using mergeRec.induct opts with
  | case1 =>
    intro _ _ _
    simp [mergeRec]
  | case2 s =>
    intro hmax _ _
    simp only [mergeRec]
    intro t ht
    simp at ht
    subst ht
    exact hmax t (by simp)
  | case3 s1 s2 rest hc ih =>
    intro hmax hcons hgap
    simp only [mergeRec, if_pos hc]
    intro t ht
    rcases List.mem_cons.mp ht with h | h
    · subst h
      have h1 : s1.duration = s1.endTime - s1.startTime := hcons s1 (by simp)
      have h2 : s2.duration = s2.endTime - s2.startTime := hcons s2 (by simp)
      have h3 : s2.startTime = s1.endTime := (List.chain'_cons.mp hgap).1
      have h4 : s1.duration + s2.duration ≤ opts.maxDuration := hc.2
      simp only [mergedSeg]
      linarith
    · exact ih (fun u hu => hmax u (by simp [hu]))
        (fun u hu => hcons u (by simp [hu]))
        (hgap.tail.tail) t h
  | case4 s1 s2 rest hc ih =>
    intro hmax hcons hgap
    simp only [mergeRec, if_neg hc]
    intro t ht
    rcases List.mem_cons.mp ht with h | h
    · subst h
      exact hmax t (by simp)
    · exact ih (fun u hu => hmax u (by simp at hu ⊢; tauto))
        (fun u hu => hcons u (by simp at hu ⊢; tauto))
        ((List.chain'_cons.mp hgap).2) t h

/-- **C4 (amended)** The merger merges a pair only when the summed durations
stay within `maxDuration` and passes every other segment through unchanged;
consequently, when every input segment already respects the ceiling, duration
fields are consistent (`duration = endTime - startTime`) and consecutive
segments are gap-free, every output segment of `mergeShortSegments` has
duration ≤ maxDuration. -/
theorem mergeShortSegments_ceiling (opts : SplitterOptions) (segs : List Segment)
    (hmax : ∀ s ∈ segs, s.duration ≤ opts.maxDuration)
    (hcons : ∀ s ∈ segs, s.duration = s.endTime - s.startTime)
    (hgap : List.Chain' (fun a b => b.startTime = a.endTime) segs) :
    ∀ s ∈ mergeShortSegments segs opts, s.duration ≤ opts.maxDuration := by
  rw [mergeShortSegments_eq_mergeRec]
  exact mergeRec_ceiling opts segs hmax hcons hgap

/-- C4 witness input segment 1. -/
def c4segA : Segment :=
  { id := generateId, text := ['x'], startTime := 0, endTime := 1, words := [],
    duration := 1 }

/-- C4 witness input segment 2. -/
def c4segB : Segment :=
  { id := generateId, text := ['y'], startTime := 1, endTime := 2, words := [],
    duration := 1 }

/-- Witness for the amended C4: on two consistent, gap-free, short segments the
merger merges them and the merged segment respects the ceiling. -/
theorem mergeShortSegments_ceiling_witness :
    (mergedSeg c4segA c4segB).duration ≤ defaultOptions.maxDuration := by
  have hmem : mergedSeg c4segA c4segB ∈
      mergeShortSegments [c4segA, c4segB] defaultOptions := by
    rw [mergeShortSegments_eq_mergeRec]
    have hc : c4segA.duration < defaultOptions.minDuration ∧
        c4segA.duration + c4segB.duration ≤ defaultOptions.maxDuration := by
      norm_num [c4segA, c4segB, defaultOptions]
    simp [mergeRec, hc]
  exact mergeShortSegments_ceiling defaultOptions [c4segA, c4segB]
    (by
      intro s hs
      simp only [List.mem_cons, List.not_mem_nil, or_false] at hs
      rcases hs with rfl | rfl <;> norm_num [c4segA, c4segB, defaultOptions])
    (by
      intro s hs
      simp only [List.mem_cons, List.not_mem_nil, or_false] at hs
      rcases hs with rfl | rfl <;> norm_num [c4segA, c4segB])
    (by simp [List.chain'_cons, c4segA, c4segB])
    (mergedSeg c4segA c4segB) hmem

theorem mergeRec_ne_nil (opts : SplitterOptions) (segs : List Segment)
    (h : segs ≠ []) : mergeRec opts segs ≠ [] := by
  induction segs using mergeRec.induct opts with
  | case1 => simp at h
  | case2 s => simp [mergeRec]
  | case3 s1 s2 rest hc ih => simp [mergeRec, if_pos hc]
  | case4 s1 s2 rest hc ih => simp [mergeRec, if_neg hc]

theorem mergeRec_length_le (opts : SplitterOptions) (segs : List Segment) :
    (mergeRec opts segs).length ≤ segs.length := by
  induction segs using mergeRec.induct opts with
  | case1 => simp [mergeRec]
  | case2 s => simp [mergeRec]
  | case3 s1 s2 rest hc ih =>
    simp only [mergeRec, if_pos hc, List.length_cons]
    omega
  | case4 s1 s2 rest hc ih =>
    simp only [mergeRec, if_neg hc, List.length_cons] at ih ⊢
    omega

theorem mergeRec_head_start (opts : SplitterOptions) (segs : List Segment) :
    (mergeRec opts segs).head?.map Segment.startTime
      = segs.head?.map Segment.startTime := by
  induction segs using mergeRec.induct opts with
  | case1 => rfl
  | case2 s => rfl
  | case3 s1 s2 rest hc ih => simp [mergeRec, if_pos hc, mergedSeg]
  | case4 s1 s2 rest hc ih => simp [mergeRec, if_neg hc]

theorem getLastQCons {α : Type} (a b : α) (l : List α) :
    (a :: b :: l).getLast? = (b :: l).getLast? := by
  simp [List.getLast?_cons_cons]

theorem mergeRec_last_end (opts : SplitterOptions) (segs : List Segment) :
    (mergeRec opts segs).getLast?.map Segment.endTime
      = segs.getLast?.map Segment.endTime := by
  induction segs using mergeRec.induct opts with
  | case1 => rfl
  | case2 s => rfl
  | case3 s1 s2 rest hc ih =>
    simp only [mergeRec, if_pos hc]
    cases hr : rest with
    | nil =>
      simp only [hr] at ih ⊢
      simp [mergeRec, mergedSeg]
    | cons b l =>
      rw [hr] at ih
      have hne : mergeRec opts (b :: l) ≠ [] := mergeRec_ne_nil opts _ (by simp)
      cases hm : mergeRec opts (b :: l) with
      | nil => exact absurd hm hne
      | cons c m =>
        rw [hm] at ih
        rw [getLastQCons, getLastQCons _ s2 (b :: l), getLastQCons s2 b l]
        exact ih
  | case4 s1 s2 rest hc ih =>
    simp only [mergeRec, if_neg hc]
    have hne : mergeRec opts (s2 :: rest) ≠ [] := mergeRec_ne_nil opts _ (by simp)
    cases hm : mergeRec opts (s2 :: rest) with
    | nil => exact absurd hm hne
    | cons c m =>
      rw [hm] at ih
      rw [getLastQCons, getLastQCons s1 s2 rest]
      exact ih

/-- **C10** On every non-empty input the merger returns a non-empty sequence,
no longer than the input, whose first segment keeps the input's first
`startTime` and whose last segment keeps the input's last `endTime` (the
covered time span is unchanged). -/
theorem mergeShortSegments_frame (opts : SplitterOptions) (segs : List Segment)
    (h : segs ≠ []) :
    mergeShortSegments segs opts ≠ [] ∧
    (mergeShortSegments segs opts).length ≤ segs.length ∧
    (mergeShortSegments segs opts).head?.map Segment.startTime
      = segs.head?.map Segment.startTime ∧
    (mergeShortSegments segs opts).getLast?.map Segment.endTime
      = segs.getLast?.map Segment.endTime := by
  rw [mergeShortSegments_eq_mergeRec]
  exact ⟨mergeRec_ne_nil opts segs h, mergeRec_length_le opts segs,
    mergeRec_head_start opts segs, mergeRec_last_end opts segs⟩

/-- C10 witness input segment 1. -/
def c10segA : Segment :=
  { id := generateId, text := ['x'], startTime := 0, endTime := 1, words := [],
    duration := 1 }

/-- C10 witness input segment 2. -/
def c10segB : Segment :=
  { id := generateId, text := ['y'], startTime := 1, endTime := 2, words := [],
    duration := 1 }

/-- Witness for C10 at a concrete two-segment input. -/
theorem mergeShortSegments_frame_witness :
    mergeShortSegments [c10segA, c10segB] defaultOptions ≠ [] ∧
    (mergeShortSegments [c10segA, c10segB] defaultOptions).length
      ≤ [c10segA, c10segB].length ∧
    (mergeShortSegments [c10segA, c10segB] defaultOptions).head?.map Segment.startTime
      = [c10segA, c10segB].head?.map Segment.startTime ∧
    (mergeShortSegments [c10segA, c10segB] defaultOptions).getLast?.map Segment.endTime
      = [c10segA, c10segB].getLast?.map Segment.endTime :=
  mergeShortSegments_frame defaultOptions [c10segA, c10segB] (by simp)

/-- Concatenation of the `words` fields of a segment sequence. -/
def wordsJoin (segs : List Segment) : List Word :=
  (segs.map Segment.words).flatten

theorem wordsJoin_nil : wordsJoin [] = [] := rfl

theorem wordsJoin_cons (s : Segment) (l : List Segment) :
    wordsJoin (s :: l) = s.words ++ wordsJoin l := by
  simp [wordsJoin]

theorem splitCore_wordsJoin (opts : SplitterOptions) (ws : List Word) :
    ∀ buffer start, wordsJoin (splitCore opts ws buffer start) = buffer ++ ws := by
  induction ws with
  | nil =>
    intro buffer start
    by_cases h : buffer.isEmpty
    · have : buffer = [] := by simpa [List.isEmpty_iff] using h
      subst this
      simp [splitCore, wordsJoin]
    · simp [splitCore, h, wordsJoin_cons, createSegment, wordsJoin]
  | cons w rest ih =>
    intro buffer start
    simp only [splitCore]
    by_cases h : checkShouldSplit
        { currentDuration := w.endTime - start
          currentCharCount := nonWsCount (joinSpace ((buffer ++ [w]).map (·.word)))
          currentText := joinSpace ((buffer ++ [w]).map (·.word))
          word := w
          nextWord := rest.head?
          opts := opts } = true
    · rw [if_pos h, wordsJoin_cons, ih]
      simp [createSegment]
    · rw [if_neg h, ih]
      simp

theorem mergeRec_wordsJoin (opts : SplitterOptions) (segs : List Segment) :
    wordsJoin (mergeRec opts segs) = wordsJoin segs := by
  induction segs using mergeRec.induct opts with
  | case1 => rfl
  | case2 s => rfl
  | case3 s1 s2 rest hc ih =>
    simp only [mergeRec, if_pos hc]
    rw [wordsJoin_cons, ih, wordsJoin_cons, wordsJoin_cons]
    simp [mergedSeg]
  | case4 s1 s2 rest hc ih =>
    simp only [mergeRec, if_neg hc]
    rw [wordsJoin_cons, ih, wordsJoin_cons, wordsJoin_cons, wordsJoin_cons]

/-- Chronological ordering of a word stream: start times are non-decreasing
and every word's span is non-negative. -/
def ChronOrdered (ws : List Word) : Prop :=
  List.Chain' (fun a b => a.startTime ≤ b.startTime) ws ∧
  ∀ w ∈ ws, w.startTime ≤ w.endTime

/-- **C1** For every non-empty chronologically ordered word list, the
concatenation of the `words` fields of all segments returned by
`splitSubtitles` (merge pass included) is the input word list, in order, with
no word dropped or duplicated. -/
theorem splitSubtitles_coverage (opts : SplitterOptions) (stt : STTResult)
    (h1 : stt.words ≠ []) (h2 : ChronOrdered stt.words) :
    wordsJoin (splitSubtitles stt opts) = stt.words := by
  rw [splitSubtitles_eq_mergeRec_draft, mergeRec_wordsJoin]
  rcases stt with ⟨ft, ws, d, lg⟩
  cases ws with
  | nil => simp at h1
  | cons w rest =>
    simp only [splitSubtitlesDraft]
    rw [splitCore_wordsJoin]
    simp

/-- C1 witness word 1. -/
def c1wordA : Word :=
  { word := "hi".toList, startTime := 0, endTime := 3 / 10, confidence := none }

/-- C1 witness word 2. -/
def c1wordB : Word :=
  { word := "there".toList, startTime := 3 / 10, endTime := 3 / 5,
    confidence := none }

/-- C1 witness transcription input. -/
def c1stt : STTResult :=
  { fullText := [], words := [c1wordA, c1wordB], duration := 3 / 5,
    language := none }

/-- Witness for C1 at a concrete two-word chronological input. -/
theorem splitSubtitles_coverage_witness :
    wordsJoin (splitSubtitles c1stt defaultOptions) = c1stt.words :=
  splitSubtitles_coverage defaultOptions c1stt (by simp [c1stt])
    ⟨by
      simp only [c1stt, List.chain'_cons, List.chain'_singleton, and_true]
      norm_num [c1wordA, c1wordB],
    by
      intro w hw
      simp only [c1stt, List.mem_cons, List.not_mem_nil, or_false] at hw
      rcases hw with rfl | rfl <;> norm_num [c1wordA, c1wordB]⟩

theorem checkShouldSplit_false_bounds (p : SplitCheckParams)
    (h : checkShouldSplit p = false) :
    p.currentDuration < p.opts.maxDuration ∧
    p.currentCharCount < p.opts.maxCharacters := by
  rcases p with ⟨cd, cc, ct, w, nxt, opts⟩
  cases nxt with
  | none => simp [checkShouldSplit] at h
  | some nw =>
    simp only [checkShouldSplit] at h
    split_ifs at h with h1 h2 h3 h4 h5 h6 h7 <;>
      exact ⟨not_le.mp h1, not_le.mp h2⟩

theorem snocInj {α : Type} {a b : List α} {x y : α}
    (h : a ++ [x] = b ++ [y]) : a = b ∧ x = y := by
  have h2 := congrArg List.reverse h
  simp only [List.reverse_append, List.reverse_singleton, List.singleton_append,
    List.cons.injEq] at h2
  exact ⟨by
    have := h2.2
    have h3 := congrArg List.reverse this
    simpa using h3, h2.1⟩

theorem getLastDSnoc (l : List ℚ) (a : ℚ) (d : ℚ) :
    (l ++ [a]).getLastD d = a := by
  induction l with
  | nil => rfl
  | cons c rest ih =>
    cases rest with
    | nil => rfl
    | cons e m => simpa using ih

/-- Bound satisfied by every proper prefix of a buffered word run: its
duration (from the running segment start to its last word's end) is below
`maxDuration` and its joined text is below `maxCharacters`. -/
def prefixBound (opts : SplitterOptions) (start : ℚ) (q : List Word) : Prop :=
  (q.map Word.endTime).getLastD 0 - start < opts.maxDuration ∧
  nonWsCount (joinSpace (q.map Word.word)) < opts.maxCharacters

theorem splitCore_prefix_bounds (opts : SplitterOptions) (ws : List Word) :
    ∀ buffer start,
      (∀ n, 0 < n → n ≤ buffer.length → prefixBound opts start (buffer.take n)) →
      ∀ seg ∈ splitCore opts ws buffer start, ∀ q w, seg.words = q ++ [w] →
        q ≠ [] → prefixBound opts seg.startTime q := by
  induction ws with
  | nil =>
    intro buffer start hinv seg hseg q w hqw hq
    cases hb : buffer.isEmpty with
    | true => simp [splitCore, hb] at hseg
    | false =>
      simp only [splitCore, hb] at hseg
      simp only [Bool.false_eq_true, if_false, List.mem_singleton] at hseg
      subst hseg
      have hwords : buffer = q ++ [w] := by simpa [createSegment] using hqw
      have hstart : (createSegment buffer start).startTime = start := rfl
      rw [hstart]
      have hlen : q.length + 1 = buffer.length := by
        rw [hwords]; simp
      have := hinv q.length (by cases q with
        | nil => exact absurd rfl hq
        | cons a l => simp) (by omega)
      rwa [hwords, List.take_left] at this
  | cons w rest ih =>
    intro buffer start hinv seg hseg q w0 hqw hq
    simp only [splitCore] at hseg
    by_cases hsp : checkShouldSplit
        { currentDuration := w.endTime - start
          currentCharCount := nonWsCount (joinSpace ((buffer ++ [w]).map (·.word)))
          currentText := joinSpace ((buffer ++ [w]).map (·.word))
          word := w
          nextWord := rest.head?
          opts := opts } = true
    · rw [if_pos hsp] at hseg
      rcases List.mem_cons.mp hseg with h | h
      · subst h
        have hwords : buffer ++ [w] = q ++ [w0] := by
          simpa [createSegment] using hqw
        obtain ⟨hqb, hww⟩ := snocInj hwords
        have hstart : (createSegment (buffer ++ [w]) start).startTime = start := rfl
        rw [hstart, ← hqb]
        have hbpos : 0 < buffer.length := by
          cases hbuf : buffer with
          | nil =>
            rw [hbuf] at hqb
            exact absurd hqb.symm hq
          | cons a l => simp
        have := hinv buffer.length hbpos le_rfl
        rwa [List.take_length] at this
      · exact ih [] _ (fun n hn hle => False.elim (by simp at hle; omega))
          seg h q w0 hqw hq
    · rw [if_neg hsp] at hseg
      refine ih (buffer ++ [w]) start ?_ seg hseg q w0 hqw hq
      intro n hn hle
      by_cases hcase : n ≤ buffer.length
      · rw [List.take_append_of_le_length hcase]
        exact hinv n hn hcase
      · have hn1 : n = buffer.length + 1 := by
          simp at hle; omega
        subst hn1
        have htake : (buffer ++ [w]).take (buffer.length + 1) = buffer ++ [w] := by
          apply List.take_of_length_le
          simp
        rw [htake]
        have hfalse : checkShouldSplit
            { currentDuration := w.endTime - start
              currentCharCount := nonWsCount (joinSpace ((buffer ++ [w]).map (·.word)))
              currentText := joinSpace ((buffer ++ [w]).map (·.word))
              word := w
              nextWord := rest.head?
              opts := opts } = false := by
          revert hsp
          cases checkShouldSplit
              { currentDuration := w.endTime - start
                currentCharCount := nonWsCount (joinSpace ((buffer ++ [w]).map (·.word)))
                currentText := joinSpace ((buffer ++ [w]).map (·.word))
                word := w
                nextWord := rest.head?
                opts := opts } <;> simp
        have hb := checkShouldSplit_false_bounds _ hfalse
        constructor
        · have : ((buffer ++ [w]).map Word.endTime).getLastD 0 = w.endTime := by
            rw [List.map_append]
            exact getLastDSnoc _ _ _
          rw [this]
          exact hb.1
        · exact hb.2

/-- **C3 (amended)** A draft segment of the word-stream segmenter can exceed
the `maxDuration`/`maxCharacters` ceilings only through its final word: for
every draft segment with at least two words, the buffer without its last word
has duration < maxDuration (measured from the segment's startTime) and
non-whitespace character count < maxCharacters; a single-word segment may
exceed both ceilings arbitrarily, and the final buffer is still flushed as a
segment rather than dropped. -/
theorem splitSubtitlesDraft_prefix_bounds (opts : SplitterOptions)
    (stt : STTResult) :
    ∀ seg ∈ splitSubtitlesDraft stt opts, ∀ q w, seg.words = q ++ [w] →
      q ≠ [] →
      (q.map Word.endTime).getLastD 0 - seg.startTime < opts.maxDuration ∧
      nonWsCount (joinSpace (q.map Word.word)) < opts.maxCharacters := by
  intro seg hseg q w hqw hq
  rcases stt with ⟨ft, ws, d, lg⟩
  cases ws with
  | nil => simp [splitSubtitlesDraft] at hseg
  | cons w0 rest =>
    have := splitCore_prefix_bounds opts (w0 :: rest) [] w0.startTime
      (fun n hn hle => False.elim (by simp at hle; omega))
      seg (by simpa [splitSubtitlesDraft] using hseg) q w hqw hq
    exact this

/-- Witness for the amended C3: in the counterexample run, the first draft
segment's words minus its final word stay below both ceilings. -/
theorem splitSubtitlesDraft_prefix_bounds_witness :
    (([cxWordA].map Word.endTime).getLastD 0 - cxSeg1.startTime
        < defaultOptions.maxDuration) ∧
    nonWsCount (joinSpace ([cxWordA].map Word.word))
        < defaultOptions.maxCharacters :=
  splitSubtitlesDraft_prefix_bounds defaultOptions cxStt cxSeg1
    (by rw [cxDraft_eval]; simp)
    [cxWordA] cxWordB (by simp [cxSeg1]) (by simp)

/-- A JavaScript number that may be `NaN` (`none`). -/
abbrev JsQ := Option ℚ

/-- JavaScript division as used in `recalculateTimings`: division by zero
yields a non-number (`0/0` is `NaN`; the numerator is always 0 there). -/
def jsDiv (a b : ℚ) : JsQ :=
  if b = 0 then none else some (a / b)

/-- Multiplication by a plain number; `NaN` propagates. -/
def jsMul (a : JsQ) (b : ℚ) : JsQ :=
  a.map (· * b)

/-- Addition; `NaN` propagates. -/
def jsAdd (a b : JsQ) : JsQ :=
  match a, b with
  | some x, some y => some (x + y)
  | _, _ => none

/-- Output segment of `recalculateTimings`: the spread `{ ...segment }` keeps
`id`/`text`/`words`, while the recomputed times may be `NaN`. -/
structure RecalcSegment where
  id : List Char
  text : List Char
  startTime : JsQ
  endTime : JsQ
  words : List Word
  duration : JsQ
  deriving DecidableEq, Repr

/-- The `reduce` computing the total non-whitespace character count. -/
def totalCharsOf (segments : List Segment) : ℕ :=
  segments.foldl (fun sum seg => sum + nonWsCount seg.text) 0

/-- The `map` of `recalculateTimings` with its mutable `currentTime`
accumulator made explicit. -/
def recalcGo (totalChars : ℕ) (totalDuration : ℚ) :
    List Segment → JsQ → List RecalcSegment
  | [], _ => []
  | seg :: rest, currentTime =>
    let segmentChars : ℕ := nonWsCount seg.text
    let segmentDuration := jsMul (jsDiv (segmentChars : ℚ) (totalChars : ℚ))
      totalDuration
    { id := seg.id
      text := seg.text
      startTime := currentTime
      endTime := jsAdd currentTime segmentDuration
      words := seg.words
      duration := segmentDuration } ::
      recalcGo totalChars totalDuration rest (jsAdd currentTime segmentDuration)

/-- `recalculateTimings`: empty guard, then the proportional recomputation. -/
def recalculateTimings (segments : List Segment) (totalDuration : ℚ) :
    List RecalcSegment :=
  if segments.length = 0 then []
  else recalcGo (totalCharsOf segments) totalDuration segments (some 0)

/-- The proportional share of `totalDuration` assigned to one segment. -/
def charShare (tc : ℕ) (D : ℚ) (s : Segment) : ℚ :=
  ((nonWsCount s.text : ℚ) / (tc : ℚ)) * D

theorem foldl_add_counts (f : Segment → ℕ) (l : List Segment) :
    ∀ init : ℕ, l.foldl (fun sum seg => sum + f seg) init
      = init + (l.map f).sum := by
  induction l with
  | nil => intro init; simp
  | cons s rest ih =>
    intro init
    simp only [List.foldl_cons, List.map_cons, List.sum_cons]
    rw [ih]
    omega

theorem recalcGo_spec (tc : ℕ) (htc : tc ≠ 0) (D : ℚ) (segs : List Segment) :
    ∀ t : ℚ,
      List.Forall₂ (fun s r => r.duration = some (charShare tc D s)) segs
        (recalcGo tc D segs (some t)) ∧
      List.Chain' (fun a b => b.startTime = a.endTime) (recalcGo tc D segs (some t)) ∧
      (recalcGo tc D segs (some t)).head?.map RecalcSegment.startTime
        = segs.head?.map (fun _ => (some t : JsQ)) ∧
      (recalcGo tc D segs (some t)).getLast?.map RecalcSegment.endTime
        = segs.getLast?.map (fun _ =>
            (some (t + ((segs.map fun s => (nonWsCount s.text : ℚ)).sum / (tc : ℚ)) * D) : JsQ)) := by
  induction segs with
  | nil => intro t; simp [recalcGo]
  | cons s rest ih =>
    intro t
    have hdom : jsMul (jsDiv ((nonWsCount s.text : ℚ)) ((tc : ℚ))) D
        = some (charShare tc D s) := by
      simp [jsMul, jsDiv, charShare, htc]
    have hadd : jsAdd (some t) (some (charShare tc D s))
        = some (t + charShare tc D s) := rfl
    obtain ⟨ih1, ih2, ih3, ih4⟩ := ih (t + charShare tc D s)
    refine ⟨?_, ?_, ?_, ?_⟩
    · simp only [recalcGo, hdom, hadd]
      exact List.Forall₂.cons rfl ih1
    · simp only [recalcGo, hdom, hadd]
      rw [List.chain'_cons']
      refine ⟨?_, ih2⟩
      intro y hy
      cases hgo : recalcGo tc D rest (some (t + charShare tc D s)) with
      | nil =>
        rw [hgo] at hy
        simp at hy
      | cons r2 m =>
        rw [hgo] at hy ih3
        simp only [List.head?_cons, Option.mem_def, Option.some.injEq] at hy
        subst hy
        cases hr : rest with
        | nil =>
          rw [hr] at hgo
          simp [recalcGo] at hgo
        | cons b l =>
          rw [hr] at ih3
          simp only [List.head?_cons] at ih3
          show r2.startTime = some (t + charShare tc D s)
          simpa using ih3
    · simp [recalcGo, hdom, hadd]
    · simp only [recalcGo, hdom, hadd]
      cases hr : rest with
      | nil =>
        simp [hr, recalcGo, charShare]
      | cons b l =>
        rw [hr] at ih4
        have hne : recalcGo tc D (b :: l) (some (t + charShare tc D s)) ≠ [] := by
          simp [recalcGo]
        cases hgo : recalcGo tc D (b :: l) (some (t + charShare tc D s)) with
        | nil => exact absurd hgo hne
        | cons r2 m =>
          rw [hgo] at ih4
          rw [getLastQCons, getLastQCons s b l]
          rw [ih4]
          obtain ⟨x, hx⟩ : ∃ x, (b :: l).getLast? = some x := by
            cases hbl : (b :: l).getLast? with
            | none => simp at hbl
            | some v => exact ⟨v, rfl⟩
          rw [hx]
          simp only [Option.map_some, Option.some.injEq, List.map_cons,
            List.sum_cons]
          simp only [charShare]
          ring_nf

theorem totalCharsOf_eq_sum (segs : List Segment) :
    totalCharsOf segs = (segs.map (fun s => nonWsCount s.text)).sum := by
  simpa using foldl_add_counts (fun s => nonWsCount s.text) segs 0

theorem totalCharsOf_cast (segs : List Segment) :
    ((segs.map fun s => ((nonWsCount s.text : ℕ) : ℚ)).sum)
      = ((totalCharsOf segs : ℕ) : ℚ) := by
  rw [totalCharsOf_eq_sum]
  induction segs with
  | nil => simp
  | cons s rest ih => simp [ih]

/-- **C7** On a non-empty segment list with positive total non-whitespace
character count, `recalculateTimings` returns a contiguous gap-free timeline:
the first startTime is 0, each next startTime equals the previous endTime,
each duration is the segment's proportional character share of
`totalDuration`, and the last endTime is `totalDuration`. -/
theorem recalculateTimings_contiguous (segs : List Segment) (D : ℚ)
    (h1 : segs ≠ []) (h2 : 0 < totalCharsOf segs) :
    (recalculateTimings segs D).head?.map RecalcSegment.startTime
      = some (some 0) ∧
    List.Chain' (fun a b => b.startTime = a.endTime) (recalculateTimings segs D) ∧
    List.Forall₂ (fun s r => r.duration
      = some (((nonWsCount s.text : ℚ) / (totalCharsOf segs : ℚ)) * D)) segs
      (recalculateTimings segs D) ∧
    (recalculateTimings segs D).getLast?.map RecalcSegment.endTime
      = some (some D) := by
  have htc : totalCharsOf segs ≠ 0 := by omega
  obtain ⟨p1, p2, p3, p4⟩ := recalcGo_spec (totalCharsOf segs) htc D segs 0
  have hguard : recalculateTimings segs D
      = recalcGo (totalCharsOf segs) D segs (some 0) := by
    have : ¬ (segs.length = 0) := by
      simpa [List.length_eq_zero] using h1
    simp [recalculateTimings, this]
  rw [hguard]
  refine ⟨?_, p2, ?_, ?_⟩
  · obtain ⟨a, l, rfl⟩ : ∃ a l, segs = a :: l := by
      cases segs with
      | nil => exact absurd rfl h1
      | cons a l => exact ⟨a, l, rfl⟩
    simpa using p3
  · exact p1
  · rw [p4]
    obtain ⟨x, hx⟩ : ∃ x, segs.getLast? = some x := by
      cases hsg : segs.getLast? with
      | none =>
        rw [List.getLast?_eq_none_iff] at hsg
        exact absurd hsg h1
      | some v => exact ⟨v, rfl⟩
    rw [hx]
    simp only [Option.map_some', Option.some.injEq]
    rw [totalCharsOf_cast]
    have : ((totalCharsOf segs : ℕ) : ℚ) ≠ 0 := by
      exact_mod_cast htc
    field_simp

/-- C7 witness input segment 1. -/
def c7segA : Segment :=
  { id := generateId, text := "ab".toList, startTime := 0, endTime := 1,
    words := [], duration := 1 }

/-- C7 witness input segment 2. -/
def c7segB : Segment :=
  { id := generateId, text := ['c'], startTime := 1, endTime := 3, words := [],
    duration := 2 }

/-- Witness for C7 at a concrete two-segment input with 3 characters over 3
seconds. -/
theorem recalculateTimings_contiguous_witness :
    (recalculateTimings [c7segA, c7segB] 3).head?.map RecalcSegment.startTime
      = some (some 0) ∧
    List.Chain' (fun a b => b.startTime = a.endTime)
      (recalculateTimings [c7segA, c7segB] 3) ∧
    List.Forall₂ (fun s r => r.duration
      = some (((nonWsCount s.text : ℚ) / (totalCharsOf [c7segA, c7segB] : ℚ)) * 3))
      [c7segA, c7segB] (recalculateTimings [c7segA, c7segB] 3) ∧
    (recalculateTimings [c7segA, c7segB] 3).getLast?.map RecalcSegment.endTime
      = some (some 3) :=
  recalculateTimings_contiguous [c7segA, c7segB] 3 (by simp)
    (by decide)

/-- C8 failing input: one segment whose text has no non-whitespace characters. -/
def c8seg : Segment :=
  { id := generateId, text := [], startTime := 0, endTime := 5, words := [],
    duration := 5 }

/-- **C8** The implementation does not guard the zero-character division: on a
non-empty input whose total non-whitespace character count is 0 it divides by
zero, and the resulting `NaN` (modelled `none`) propagates into the output
`endTime`s (and every `startTime` after the first), instead of the guarded
behaviour the claim requires. -/
theorem recalculateTimings_zero_chars_nan :
    (recalculateTimings [c8seg] 5).map RecalcSegment.endTime = [none] ∧
    (recalculateTimings [c8seg] 5).map RecalcSegment.startTime = [some 0] := by
  norm_num [recalculateTimings, recalcGo, totalCharsOf, c8seg, nonWsCount,
    jsDiv, jsMul, jsAdd]

/-- The sentence split `text.split(/(?<=[.?!。？！])\s*/)`: cut after every
sentence delimiter character.  (The `\s*` the separator consumes is
whitespace only; since every piece is immediately trimmed and empty pieces
are filtered out, leaving that whitespace at the head of the following piece
yields the same sentence list.) -/
def sentSplitAux (piece : List Char) : List Char → List (List Char)
  | [] => [piece]
  | c :: rest =>
    if sentenceDelimChars.contains c then
      (piece ++ [c]) :: sentSplitAux [] rest
    else
      sentSplitAux (piece ++ [c]) rest

/-- `splitIntoSentences`: split, trim each piece, drop empties. -/
def splitIntoSentences (text : List Char) : List (List Char) :=
  ((sentSplitAux [] text).map trim).filter (fun s => 0 < s.length)

/-- `sentence.split(/\s+/)`: split on maximal whitespace runs (a leading run
produces a leading empty piece, as in ECMAScript). -/
def wsAux (piece : List Char) (s : List Char) : List (List Char) :=
  match s with
  | [] => [piece]
  | c :: rest =>
    if isWs c then piece :: wsAux [] ((c :: rest).dropWhile isWs)
    else wsAux (piece ++ [c]) rest
termination_by s.length
decreasing_by
  · have h2 : ((c :: rest).dropWhile isWs).length ≤ rest.length := by
      have heq : (c :: rest).dropWhile isWs = rest.dropWhile isWs := by
        simp [List.dropWhile, *]
      rw [heq]
      exact lengthDropWhileLe isWs rest
    simp only [List.length_cons]
    omega
  · simp

/-- `String.prototype.split(/\s+/)`. -/
def wsSplitJS (s : List Char) : List (List Char) :=
  wsAux [] s

/-- The chunking loop of `splitByWordCount` (`for (i = 0; i < words.length;
i += wordsPerSegment)`).  The source loop would not terminate if
`wordsPerSegment ≤ 0`; that is unreachable because `targetDuration` and
`durationPerWord` are positive at every call site, and the model steps by
`max wordsPerSegment 1`. -/
def sbwcLoop (k : ℕ) (dpw : ℚ) : List (List Char) → ℚ → List Segment
  | [], _ => []
  | w :: ws, currentTime =>
    let segmentWords := (w :: ws).take (max k 1)
    let restWords := (w :: ws).drop (max k 1)
    let segmentDuration := (segmentWords.length : ℚ) * dpw
    { id := generateId
      text := trim (joinSpace segmentWords)
      startTime := currentTime
      endTime := currentTime + segmentDuration
      words := []
      duration := segmentDuration } ::
      sbwcLoop k dpw restWords (currentTime + segmentDuration)
termination_by ws => ws.length
decreasing_by
  simp only [List.length_drop, List.length_cons]
  omega

/-- `splitByWordCount`: distribute `totalDuration` evenly over the words and
chunk them into runs of `ceil(targetDuration / durationPerWord)` words. -/
def splitByWordCount (words : List (List Char)) (startTime totalDuration : ℚ)
    (opts : SplitterOptions) : List Segment :=
  let totalWords := words.length
  let durationPerWord := totalDuration / (totalWords : ℚ)
  let wordsPerSegment : ℕ := (⌈opts.targetDuration / durationPerWord⌉).toNat
  sbwcLoop wordsPerSegment durationPerWord words startTime

/-- The per-part loop of `splitLongSentence`. -/
def slsLoop (opts : SplitterOptions) (totalChars : ℕ) (totalDuration : ℚ) :
    List (List Char) → ℚ → List Segment
  | [], _ => []
  | part :: rest, currentTime =>
    let partChars := nonWsCount part
    let partDuration := ((partChars : ℚ) / (totalChars : ℚ)) * totalDuration
    (if partDuration > opts.maxDuration then
      splitByWordCount (wsSplitJS part) currentTime partDuration opts
    else
      [{ id := generateId
         text := trim part
         startTime := currentTime
         endTime := currentTime + partDuration
         words := []
         duration := partDuration }]) ++
      slsLoop opts totalChars totalDuration rest (currentTime + partDuration)

/-- `splitLongSentence`: split the sentence on the natural-break pattern.  A
separator match of the character-class alternative leaves the capture group
unmatched, so ECMAScript `split` inserts `undefined` into the parts array and
the `filter` callback's `p.trim()` throws a `TypeError` — modelled as
`Except.error`.  Otherwise distribute the duration over the parts by character
share, word-count-splitting any part still exceeding `maxDuration`; with at
most one usable part fall back to word-count splitting of the whole
sentence. -/
def splitLongSentence (sentence : List Char) (startTime totalDuration : ℚ)
    (opts : SplitterOptions) : Except Unit (List Segment) :=
  let rawParts := opts.naturalBreakSplit sentence
  if rawParts.any (fun p => p.isNone) then Except.error ()
  else
    let parts := (rawParts.filterMap id).filter (fun p => 0 < (trim p).length)
    if parts.length ≤ 1 then
      Except.ok (splitByWordCount (wsSplitJS sentence) startTime totalDuration opts)
    else
      Except.ok (slsLoop opts (nonWsCount sentence) totalDuration parts startTime)

/-- The sentence loop of `splitTextByDuration` with its `currentTime`
accumulator explicit; errors from `splitLongSentence` propagate. -/
def stbdLoop (opts : SplitterOptions) (charPerSecond : ℚ) :
    List (List Char) → ℚ → Except Unit (List Segment)
  | [], _ => Except.ok []
  | sentence :: rest, currentTime =>
    let sentenceChars := nonWsCount sentence
    let estimatedDuration := (sentenceChars : ℚ) / charPerSecond
    if estimatedDuration > opts.maxDuration then
      match splitLongSentence sentence currentTime estimatedDuration opts with
      | Except.error e => Except.error e
      | Except.ok subSegments =>
        match stbdLoop opts charPerSecond rest (currentTime + estimatedDuration) with
        | Except.error e => Except.error e
        | Except.ok tail => Except.ok (subSegments ++ tail)
    else
      match stbdLoop opts charPerSecond rest (currentTime + estimatedDuration) with
      | Except.error e => Except.error e
      | Except.ok tail =>
        Except.ok
          ({ id := generateId
             text := trim sentence
             startTime := currentTime
             endTime := currentTime + estimatedDuration
             words := []
             duration := estimatedDuration } :: tail)

/-- `splitTextByDuration`: sentence split, empty guard, proportional
estimation loop, then the merge pass. -/
def splitTextByDuration (text : List Char) (totalDuration : ℚ)
    (opts : SplitterOptions) : Except Unit (List Segment) :=
  let sentences := splitIntoSentences text
  if sentences.length = 0 then Except.ok []
  else
    let totalChars := nonWsCount text
    let charPerSecond := (totalChars : ℚ) / totalDuration
    match stbdLoop opts charPerSecond sentences 0 with
    | Except.error e => Except.error e
    | Except.ok segments => Except.ok (mergeShortSegments segments opts)

theorem nonWsCount_append (a b : List Char) :
    nonWsCount (a ++ b) = nonWsCount a + nonWsCount b := by
  simp [nonWsCount, List.filter_append]

theorem nonWsCount_takeWhile_ws (l : List Char) :
    nonWsCount (l.takeWhile isWs) = 0 := by
  induction l with
  | nil => rfl
  | cons c rest ih =>
    by_cases h : isWs c
    · simp only [List.takeWhile_cons, h, nonWsCount, List.filter] at ih ⊢
      simp [ih, h]
    · simp [List.takeWhile_cons, h, nonWsCount]

theorem nonWsCount_reverse (l : List Char) :
    nonWsCount l.reverse = nonWsCount l := by
  simp [nonWsCount, List.filter_reverse]

theorem nonWsCount_dropWhile_ws (l : List Char) :
    nonWsCount (l.dropWhile isWs) = nonWsCount l := by
  conv_rhs => rw [← List.takeWhile_append_dropWhile (p := isWs) (l := l)]
  rw [nonWsCount_append, nonWsCount_takeWhile_ws]
  omega

theorem nonWsCount_trim (l : List Char) :
    nonWsCount (trim l) = nonWsCount l := by
  simp [trim, nonWsCount_reverse, nonWsCount_dropWhile_ws]

theorem dropWhile_head_not (p : Char → Bool) :
    ∀ (l : List Char) (c : Char) (r : List Char),
      l.dropWhile p = c :: r → p c = false := by
  intro l
  induction l with
  | nil => intro c r h; simp at h
  | cons a m ih =>
    intro c r h
    by_cases ha : p a
    · rw [List.dropWhile_cons_of_pos ha] at h
      exact ih c r h
    · rw [List.dropWhile_cons_of_neg ha] at h
      injection h with h1 h2
      subst h1
      simpa using ha

theorem trim_ne_nil_nonWs (l : List Char) (h : trim l ≠ []) :
    nonWsCount (trim l) ≠ 0 := by
  unfold trim at h ⊢
  set q := ((l.dropWhile isWs).reverse.dropWhile isWs) with hq
  cases hqq : q with
  | nil => rw [hqq] at h; simp at h
  | cons c r =>
    have hc : isWs c = false := dropWhile_head_not isWs _ c r hqq
    rw [nonWsCount_reverse]
    simp [nonWsCount, List.filter, hc]

/-- `Covers t l v`: the segment list `l` tiles the time interval from `t` to
`v` contiguously, with consistent `duration` fields. -/
inductive Covers : ℚ → List Segment → ℚ → Prop where
  | nil (t : ℚ) : Covers t [] t
  | cons (s : Segment) (l : List Segment) (t u v : ℚ) :
      s.startTime = t → s.endTime = u → s.duration = u - t →
      Covers u l v → Covers t (s :: l) v

theorem Covers.sum_duration {t v : ℚ} {l : List Segment} (h : Covers t l v) :
    (l.map Segment.duration).sum = v - t := by
  induction h with
  | nil t => simp
  | cons s l t u v h1 h2 h3 h4 ih =>
    simp only [List.map_cons, List.sum_cons, h3, ih]
    ring

theorem Covers.congr_right {t v w : ℚ} {l : List Segment} (h : Covers t l v)
    (e : v = w) : Covers t l w :=
  e ▸ h

theorem Covers.append {t u v : ℚ} {l m : List Segment} (h1 : Covers t l u)
    (h2 : Covers u m v) : Covers t (l ++ m) v := by
  induction h1 with
  | nil t => simpa using h2
  | cons s l1 t1 u1 v1 e1 e2 e3 h ih =>
    exact Covers.cons s (l1 ++ m) t1 u1 v e1 e2 e3 (ih h2)

theorem mergeRec_cons_cons (opts : SplitterOptions) (s1 s2 : Segment)
    (rest : List Segment) :
    mergeRec opts (s1 :: s2 :: rest) =
      if s1.duration < opts.minDuration ∧
          s1.duration + s2.duration ≤ opts.maxDuration then
        mergedSeg s1 s2 :: mergeRec opts rest
      else s1 :: mergeRec opts (s2 :: rest) := rfl

theorem Covers.mergeRec (opts : SplitterOptions) (segs : List Segment) :
    ∀ t v, Covers t segs v → Covers t (mergeRec opts segs) v := by
  induction segs using mergeRec.induct opts with
  | case1 =>
    intro t v h
    exact h
  | case2 s =>
    intro t v h
    exact h
  | case3 s1 s2 rest hc ih =>
    intro t v h
    cases h with
    | cons _ _ _ u1 _ hs1 he1 hd1 htail =>
      cases htail with
      | cons _ _ _ u2 _ hs2 he2 hd2 htail2 =>
        rw [mergeRec_cons_cons, if_pos hc]
        refine Covers.cons (mergedSeg s1 s2) _ t u2 v ?_ ?_ ?_ (ih u2 v htail2)
        · simpa [mergedSeg] using hs1
        · simpa [mergedSeg] using he2
        · simp [mergedSeg, he2, hs1]
  | case4 s1 s2 rest hc ih =>
    intro t v h
    cases h with
    | cons _ _ _ u1 _ hs1 he1 hd1 htail =>
      rw [mergeRec_cons_cons, if_neg hc]
      exact Covers.cons s1 _ t u1 v hs1 he1 hd1 (ih u1 v htail)

theorem sbwcLoop_covers_bounded (k : ℕ) (dpw : ℚ) (n : ℕ) :
    ∀ (ws : List (List Char)), ws.length ≤ n → ∀ t : ℚ,
      Covers t (sbwcLoop k dpw ws t) (t + (ws.length : ℚ) * dpw) := by
  induction n with
  | zero =>
    intro ws hle t
    have : ws = [] := by
      cases ws with
      | nil => rfl
      | cons a l => simp at hle
    subst this
    have e : t + ((0 : ℕ) : ℚ) * dpw = t := by push_cast; ring
    simpa [sbwcLoop] using (Covers.nil t).congr_right e.symm
  | succ n ih =>
    intro ws hle t
    cases ws with
    | nil =>
      have : t + ((0 : ℕ) : ℚ) * dpw = t := by push_cast; ring
      simpa [sbwcLoop] using (Covers.nil t).congr_right this.symm
    | cons w rest =>
      rw [sbwcLoop]
      set c := (w :: rest).take (max k 1) with hc
      set r := (w :: rest).drop (max k 1) with hr
      have hlen : c.length + r.length = (w :: rest).length := by
        rw [hc, hr, List.length_take, List.length_drop]
        simp only [List.length_cons]
        omega
      have hrlt : r.length < (w :: rest).length := by
        rw [hr, List.length_drop]
        simp only [List.length_cons]
        omega
      have hlen2 : r.length ≤ n := by
        simp only [List.length_cons] at hle hrlt
        omega
      have ihr := ih r hlen2 (t + (c.length : ℚ) * dpw)
      refine (Covers.cons _ _ t (t + (c.length : ℚ) * dpw) _ rfl rfl (by ring)
        ihr).congr_right ?_
      have : ((w :: rest).length : ℚ) = (c.length : ℚ) + (r.length : ℚ) := by
        rw [← hlen]
        push_cast
        ring
      rw [this]
      ring

theorem sbwcLoop_covers (k : ℕ) (dpw : ℚ) (ws : List (List Char)) (t : ℚ) :
    Covers t (sbwcLoop k dpw ws t) (t + (ws.length : ℚ) * dpw) :=
  sbwcLoop_covers_bounded k dpw ws.length ws le_rfl t

theorem splitByWordCount_covers (words : List (List Char)) (t D : ℚ)
    (opts : SplitterOptions) (h : words ≠ []) :
    Covers t (splitByWordCount words t D opts) (t + D) := by
  unfold splitByWordCount
  refine (sbwcLoop_covers _ _ words t).congr_right ?_
  have hlen : (words.length : ℚ) ≠ 0 := by
    simpa using List.length_pos.mpr h |>.ne.symm
  field_simp

theorem wsAux_ne_nil_bounded (n : ℕ) :
    ∀ s : List Char, s.length ≤ n → ∀ piece : List Char, wsAux piece s ≠ [] := by
  induction n with
  | zero =>
    intro s hle piece
    have : s = [] := by
      cases s with
      | nil => rfl
      | cons a l => simp at hle
    subst this
    simp [wsAux]
  | succ n ih =>
    intro s hle piece
    cases s with
    | nil => simp [wsAux]
    | cons c rest =>
      rw [wsAux]
      by_cases h : isWs c
      · simp [h]
      · simp only [h, Bool.false_eq_true, if_false]
        exact ih rest (by simp at hle; omega) (piece ++ [c])

theorem wsSplitJS_ne_nil (s : List Char) : wsSplitJS s ≠ [] :=
  wsAux_ne_nil_bounded s.length s le_rfl []

theorem slsLoop_covers (opts : SplitterOptions) (tc : ℕ) (D : ℚ) :
    ∀ (parts : List (List Char)) (t : ℚ),
      Covers t (slsLoop opts tc D parts t)
        (t + ((parts.map fun p => (nonWsCount p : ℚ)).sum / (tc : ℚ)) * D) := by
  intro parts
  induction parts with
  | nil =>
    intro t
    have : t + (([] : List (List Char)).map fun p => (nonWsCount p : ℚ)).sum / (tc : ℚ) * D = t := by
      simp
    simpa [slsLoop] using (Covers.nil t).congr_right this.symm
  | cons part rest ih =>
    intro t
    rw [slsLoop]
    set pd := ((nonWsCount part : ℚ) / (tc : ℚ)) * D with hpd
    have hstep : Covers t
        (if pd > opts.maxDuration then
          splitByWordCount (wsSplitJS part) t pd opts
        else
          [{ id := generateId
             text := trim part
             startTime := t
             endTime := t + pd
             words := []
             duration := pd }]) (t + pd) := by
      by_cases hgt : pd > opts.maxDuration
      · rw [if_pos hgt]
        exact splitByWordCount_covers (wsSplitJS part) t pd opts (wsSplitJS_ne_nil part)
      · rw [if_neg hgt]
        exact Covers.cons _ [] t (t + pd) (t + pd) rfl rfl (by ring) (Covers.nil _)
    refine (hstep.append (ih (t + pd))).congr_right ?_
    simp only [List.map_cons, List.sum_cons, hpd]
    ring

theorem sentSplitAux_sum : ∀ (s piece : List Char),
    ((sentSplitAux piece s).map nonWsCount).sum
      = nonWsCount piece + nonWsCount s := by
  intro s
  induction s with
  | nil =>
    intro piece
    simp [sentSplitAux, nonWsCount]
  | cons c rest ih =>
    intro piece
    have hsplit : nonWsCount (c :: rest) = nonWsCount [c] + nonWsCount rest := by
      have : c :: rest = [c] ++ rest := rfl
      rw [this, nonWsCount_append]
    by_cases h : sentenceDelimChars.contains c
    · simp only [sentSplitAux, h, if_pos, List.map_cons, List.sum_cons, ih]
      rw [nonWsCount_append, hsplit]
      simp [nonWsCount]
      omega
    · simp only [sentSplitAux, h, Bool.false_eq_true, if_false, ih]
      rw [nonWsCount_append, hsplit]
      omega

theorem sum_nonWs_filter (l : List (List Char)) (p : List Char → Bool)
    (h : ∀ x ∈ l, p x = false → nonWsCount x = 0) :
    ((l.filter p).map nonWsCount).sum = (l.map nonWsCount).sum := by
  induction l with
  | nil => rfl
  | cons x rest ih =>
    by_cases hx : p x
    · simp only [List.filter_cons, hx, if_pos, List.map_cons, List.sum_cons]
      rw [ih (fun y hy hpy => h y (by simp [hy]) hpy)]
    · simp only [List.filter_cons, hx, Bool.false_eq_true, if_false,
        List.map_cons, List.sum_cons]
      rw [ih (fun y hy hpy => h y (by simp [hy]) hpy)]
      have := h x (by simp) (by simpa using hx)
      omega

theorem map_trim_sum (l : List (List Char)) :
    ((l.map trim).map nonWsCount).sum = (l.map nonWsCount).sum := by
  induction l with
  | nil => rfl
  | cons x rest ih =>
    simp only [List.map_cons, List.sum_cons, ih, nonWsCount_trim]

theorem splitIntoSentences_sum (text : List Char) :
    ((splitIntoSentences text).map nonWsCount).sum = nonWsCount text := by
  unfold splitIntoSentences
  rw [sum_nonWs_filter]
  · rw [map_trim_sum, sentSplitAux_sum]
    simp [nonWsCount]
  · intro x hx hpx
    have hlen : x.length = 0 := by
      simpa using hpx
    have : x = [] := List.length_eq_zero.mp hlen
    subst this
    rfl

theorem splitIntoSentences_mem_nonWs (text : List Char) (s : List Char)
    (h : s ∈ splitIntoSentences text) : nonWsCount s ≠ 0 := by
  unfold splitIntoSentences at h
  obtain ⟨hmem, hlen⟩ := List.mem_filter.mp h
  obtain ⟨piece, hpmem, rfl⟩ := List.mem_map.mp hmem
  have hne : trim piece ≠ [] := by
    intro hcon
    rw [hcon] at hlen
    simp at hlen
  have := trim_ne_nil_nonWs piece hne
  exact this

theorem startsWithSeq_decomp : ∀ (p s : List Char),
    startsWithSeq p s = true → s = p ++ s.drop p.length := by
  intro p
  induction p with
  | nil => intro s _; simp
  | cons a ps ih =>
    intro s h
    cases s with
    | nil => simp [startsWithSeq] at h
    | cons c cs =>
      simp only [startsWithSeq, Bool.and_eq_true, beq_iff_eq] at h
      obtain ⟨rfl, h2⟩ := h
      simp only [List.length_cons, List.drop_succ_cons, List.cons_append,
        List.cons.injEq, true_and]
      exact ih cs h2

theorem nbAux_sum : ∀ (s piece : List Char),
    ((nbAux piece s).all Option.isSome) = true →
    (((nbAux piece s).filterMap id).map nonWsCount).sum
      = nonWsCount piece + nonWsCount s := by
  intro s piece
  induction piece, s using nbAux.induct with
  | case1 piece =>
    intro _
    simp [nbAux, nonWsCount]
  | case2 piece c rest hdelim =>
    intro h
    rw [nbAux] at h
    have hmem : c ∈ breakDelimChars := by simpa using hdelim
    simp [hmem] at h
  | case3 piece c rest hdelim hws cj hfind ih =>
    intro h
    rw [nbAux] at h ⊢
    simp only [hdelim, Bool.false_eq_true, if_false, hws, if_pos, hfind] at h ⊢
    simp only [List.all_cons, Option.isSome_some, Bool.true_and] at h
    simp only [List.filterMap_cons, id_eq, List.map_cons, List.sum_cons, ih h]
    have hA : c :: rest
        = (c :: rest).takeWhile isWs ++ (c :: rest).dropWhile isWs :=
      (List.takeWhile_append_dropWhile isWs (c :: rest)).symm
    have hcj : conjThenWs cj ((c :: rest).dropWhile isWs) = true := by
      have := List.find?_some hfind
      exact this
    have hpre : startsWithSeq cj ((c :: rest).dropWhile isWs) = true := by
      have h2 := hcj
      unfold conjThenWs at h2
      simp only [Bool.and_eq_true] at h2
      exact h2.1
    have hR : (c :: rest).dropWhile isWs
        = cj ++ ((c :: rest).dropWhile isWs).drop cj.length :=
      startsWithSeq_decomp cj _ hpre
    have hAC : ((c :: rest).dropWhile isWs).drop cj.length
        = (((c :: rest).dropWhile isWs).drop cj.length).takeWhile isWs
          ++ (((c :: rest).dropWhile isWs).drop cj.length).dropWhile isWs :=
      (List.takeWhile_append_dropWhile isWs
        (((c :: rest).dropWhile isWs).drop cj.length)).symm
    have e1 : nonWsCount (c :: rest)
        = nonWsCount ((c :: rest).dropWhile isWs) := by
      conv_lhs => rw [hA]
      rw [nonWsCount_append, nonWsCount_takeWhile_ws]
      omega
    have e2 : nonWsCount ((c :: rest).dropWhile isWs)
        = nonWsCount cj
          + nonWsCount (((c :: rest).dropWhile isWs).drop cj.length) := by
      conv_lhs => rw [hR]
      rw [nonWsCount_append]
    have e3 : nonWsCount (((c :: rest).dropWhile isWs).drop cj.length)
        = nonWsCount
            ((((c :: rest).dropWhile isWs).drop cj.length).dropWhile isWs) := by
      conv_lhs => rw [hAC]
      rw [nonWsCount_append, nonWsCount_takeWhile_ws]
      omega
    rw [e1, e2, e3]
    simp [nonWsCount]
  | case4 piece c rest hdelim hws hfind ih =>
    intro h
    rw [nbAux] at h ⊢
    simp only [hdelim, Bool.false_eq_true, if_false, hws, if_pos, hfind] at h ⊢
    rw [ih h]
    have h1 : nonWsCount (piece ++ [c]) = nonWsCount piece + nonWsCount [c] :=
      nonWsCount_append piece [c]
    have h2 : nonWsCount (c :: rest) = nonWsCount [c] + nonWsCount rest :=
      nonWsCount_append [c] rest
    omega
  | case5 piece c rest hdelim hws ih =>
    intro h
    rw [nbAux] at h ⊢
    simp only [hdelim, Bool.false_eq_true, if_false, hws] at h ⊢
    rw [ih h]
    have h1 : nonWsCount (piece ++ [c]) = nonWsCount piece + nonWsCount [c] :=
      nonWsCount_append piece [c]
    have h2 : nonWsCount (c :: rest) = nonWsCount [c] + nonWsCount rest :=
      nonWsCount_append [c] rest
    omega

theorem listCastSum (l : List (List Char)) (f : List Char → ℕ) :
    ((l.map fun x => ((f x : ℕ) : ℚ)).sum) = (((l.map f).sum : ℕ) : ℚ) := by
  induction l with
  | nil => simp
  | cons x rest ih => simp [ih]

theorem splitLongSentence_covers (sentence : List Char) (t D : ℚ)
    (segs : List Segment)
    (hok : splitLongSentence sentence t D defaultOptions = Except.ok segs)
    (htc : nonWsCount sentence ≠ 0) :
    Covers t segs (t + D) := by
  unfold splitLongSentence at hok
  by_cases hnone : (defaultOptions.naturalBreakSplit sentence).any
      (fun p => p.isNone)
  · rw [if_pos hnone] at hok
    exact absurd hok (by simp)
  · rw [if_neg hnone] at hok
    set parts := ((defaultOptions.naturalBreakSplit sentence).filterMap id).filter
      (fun p => 0 < (trim p).length) with hparts
    by_cases hlen : parts.length ≤ 1
    · rw [if_pos hlen] at hok
      injection hok with hok
      subst hok
      exact splitByWordCount_covers (wsSplitJS sentence) t D defaultOptions
        (wsSplitJS_ne_nil sentence)
    · rw [if_neg hlen] at hok
      injection hok with hok
      subst hok
      refine (slsLoop_covers defaultOptions (nonWsCount sentence) D parts t).congr_right ?_
      have hall : ((nbAux [] sentence).all Option.isSome) = true := by
        have heq : defaultOptions.naturalBreakSplit sentence = nbAux [] sentence := rfl
        rw [heq] at hnone
        simp only [List.all_eq_true]
        intro x hx
        cases x with
        | some v => rfl
        | none =>
          exfalso
          apply hnone
          simp only [List.any_eq_true]
          exact ⟨none, hx, rfl⟩
      have hsum : ((parts.map nonWsCount).sum) = nonWsCount sentence := by
        rw [hparts]
        have : defaultOptions.naturalBreakSplit sentence = nbAux [] sentence := rfl
        rw [this]
        rw [sum_nonWs_filter]
        · have := nbAux_sum sentence [] hall
          simpa [nonWsCount] using this
        · intro x hx hpx
          have hlen0 : (trim x).length = 0 := by simpa using hpx
          have : trim x = [] := List.length_eq_zero.mp hlen0
          have h2 := nonWsCount_trim x
          rw [this] at h2
          simpa [nonWsCount] using h2.symm
      have hsum2 : ((parts.map fun p => (nonWsCount p : ℚ)).sum)
          = ((nonWsCount sentence : ℕ) : ℚ) := by
        rw [listCastSum parts nonWsCount, hsum]
      rw [hsum2]
      have hne : ((nonWsCount sentence : ℕ) : ℚ) ≠ 0 := by
        exact_mod_cast htc
      field_simp

theorem stbdLoop_covers (cps : ℚ) :
    ∀ (sentences : List (List Char)) (t : ℚ) (segs : List Segment),
      (∀ s ∈ sentences, nonWsCount s ≠ 0) →
      stbdLoop defaultOptions cps sentences t = Except.ok segs →
      Covers t segs
        (t + ((sentences.map fun s => (nonWsCount s : ℚ)).sum / cps)) := by
  intro sentences
  induction sentences with
  | nil =>
    intro t segs _ hok
    rw [stbdLoop] at hok
    injection hok with hok
    subst hok
    exact (Covers.nil t).congr_right (by simp)
  | cons sentence rest ih =>
    intro t segs hmem hok
    simp only [stbdLoop] at hok
    by_cases hgt : ((nonWsCount sentence : ℚ) / cps) > defaultOptions.maxDuration
    · rw [if_pos hgt] at hok
      cases hsls : splitLongSentence sentence t ((nonWsCount sentence : ℚ) / cps)
          defaultOptions with
      | error e => rw [hsls] at hok; exact absurd hok (by simp)
      | ok sub =>
        rw [hsls] at hok
        cases hrest : stbdLoop defaultOptions cps rest
            (t + (nonWsCount sentence : ℚ) / cps) with
        | error e => rw [hrest] at hok; exact absurd hok (by simp)
        | ok tail =>
          rw [hrest] at hok
          injection hok with hok
          subst hok
          have hcov1 := splitLongSentence_covers sentence t _ sub hsls
            (hmem sentence (by simp))
          have hcov2 := ih (t + (nonWsCount sentence : ℚ) / cps) tail
            (fun s hs => hmem s (by simp [hs])) hrest
          refine (hcov1.append hcov2).congr_right ?_
          simp only [List.map_cons, List.sum_cons]
          ring
    · rw [if_neg hgt] at hok
      cases hrest : stbdLoop defaultOptions cps rest
          (t + (nonWsCount sentence : ℚ) / cps) with
      | error e => rw [hrest] at hok; exact absurd hok (by simp)
      | ok tail =>
        rw [hrest] at hok
        injection hok with hok
        subst hok
        have hcov2 := ih (t + (nonWsCount sentence : ℚ) / cps) tail
          (fun s hs => hmem s (by simp [hs])) hrest
        refine Covers.cons _ _ t (t + (nonWsCount sentence : ℚ) / cps) _
          rfl rfl (by ring) hcov2 |>.congr_right ?_
        simp only [List.map_cons, List.sum_cons]
        ring

/-- **C6 counterexample** On the empty text `splitTextByDuration` returns the
empty segment list, whose durations sum to 0 ≠ totalDuration = 10, so the sum
does not equal `totalDuration` for every text. -/
theorem splitTextByDuration_empty_cx :
    splitTextByDuration [] 10 defaultOptions = Except.ok [] ∧
    ((([] : List Segment).map Segment.duration).sum = 0) ∧ ((0 : ℚ) ≠ 10) := by
  refine ⟨rfl, rfl, by norm_num⟩

/-- **C6 (amended)** With the default options, for every text containing at
least one non-whitespace character and every `totalDuration > 0`, whenever
`splitTextByDuration` returns successfully (its natural-break splitting throws
on a long sentence containing a punctuation-type break delimiter, because the
regex capture group inserts `undefined` into the split parts), the durations
of the returned segments sum exactly to `totalDuration`. -/
theorem splitTextByDuration_sum (text : List Char) (D : ℚ) (segs : List Segment)
    (_hD : 0 < D) (hchars : nonWsCount text ≠ 0)
    (hok : splitTextByDuration text D defaultOptions = Except.ok segs) :
    (segs.map Segment.duration).sum = D := by
  simp only [splitTextByDuration] at hok
  by_cases hempty : (splitIntoSentences text).length = 0
  · exfalso
    have hsl : splitIntoSentences text = [] := List.length_eq_zero.mp hempty
    have hs := splitIntoSentences_sum text
    rw [hsl] at hs
    simp at hs
    exact hchars hs.symm
  · rw [if_neg hempty] at hok
    cases hloop : stbdLoop defaultOptions ((nonWsCount text : ℚ) / D)
        (splitIntoSentences text) 0 with
    | error e =>
      rw [hloop] at hok
      exact absurd hok (by simp)
    | ok segments =>
      rw [hloop] at hok
      injection hok with hok
      subst hok
      have hmem : ∀ s ∈ splitIntoSentences text, nonWsCount s ≠ 0 :=
        fun s hs => splitIntoSentences_mem_nonWs text s hs
      have hcov := stbdLoop_covers ((nonWsCount text : ℚ) / D)
        (splitIntoSentences text) 0 segments hmem hloop
      have hsum : ((splitIntoSentences text).map fun s => (nonWsCount s : ℚ)).sum
          = ((nonWsCount text : ℕ) : ℚ) := by
        rw [listCastSum _ nonWsCount, splitIntoSentences_sum]
      rw [hsum] at hcov
      have h1 : ((nonWsCount text : ℕ) : ℚ) ≠ 0 := by exact_mod_cast hchars
      have hend : (0 : ℚ) + ((nonWsCount text : ℕ) : ℚ)
          / ((nonWsCount text : ℚ) / D) = D := by
        field_simp
      rw [hend] at hcov
      have hcov2 : Covers 0 (mergeShortSegments segments defaultOptions) D := by
        rw [mergeShortSegments_eq_mergeRec]
        exact Covers.mergeRec defaultOptions segments 0 D hcov
      have hfin := hcov2.sum_duration
      simpa using hfin

/-- C6 witness output segment. -/
def c6seg : Segment :=
  { id := generateId, text := "ab".toList, startTime := 0, endTime := 2,
    words := [], duration := 2 }

/-- Witness for the amended C6: on text `"ab"` over 2 seconds the function
returns one segment and the durations sum to 2. -/
theorem splitTextByDuration_sum_witness :
    (([c6seg] : List Segment).map Segment.duration).sum = 2 := by
  have hsent : splitIntoSentences "ab".toList = ["ab".toList] := by decide
  have hok : splitTextByDuration "ab".toList 2 defaultOptions
      = Except.ok [c6seg] := by
    simp only [splitTextByDuration, hsent]
    norm_num +decide [stbdLoop, defaultOptions, nonWsCount, isWs,
      mergeShortSegments, c6seg, generateId, trim, List.filter]
  exact splitTextByDuration_sum "ab".toList 2 [c6seg] (by norm_num) (by decide)
    hok
